import Mathlib

/-!
Verification of the Nim self-play Q-learning program.

The development shallowly embeds the program: the `Nim` game state with its
move operation, the `NimAI` agent with its Q-table (an association list from
`(state, action)` keys to rational values, mirroring the Python dict whose
float values we model exactly with rationals), and the training driver.
Imperative mutation becomes explicit state passing; a raised exception
becomes an error value paired with the state as it stands at the raise
point; the process-wide random source becomes an explicit oracle stream of
(draw, choice-index) pairs consumed one entry per ply.
-/

/-- An action is a pair (pileIndex, count) of Python integers. -/
abbrev NimAction : Type := ℤ × ℤ

/-- The Nim game state: piles of non-negative counts, the current player
(0 or 1), and the optional winner. -/
structure Nim where
  piles : List ℕ
  player : ℕ
  winner : Option ℕ
deriving DecidableEq, Repr

/-- Constructor: copies the initial pile list, player 0 to move, no winner. -/
def Nim.init (initial : List ℕ) : Nim :=
  { piles := initial, player := 0, winner := none }

/-- The default initial pile configuration of the program. -/
def Nim.initialDefault : List ℕ := [1, 3, 5, 7]

/-- All available actions in a pile configuration: for each pile index i
with size n, the pairs (i, j) for j in [1, n], in enumeration order. -/
def Nim.availableActionsList (piles : List ℕ) : List NimAction :=
  (List.range piles.length).flatMap
    (fun i => (List.range (piles.getD i 0)).map (fun (j : ℕ) => ((i : ℤ), (j : ℤ) + 1)))

/-- The set of available actions, as the program builds a Python set. -/
def Nim.available_actions (piles : List ℕ) : Finset NimAction :=
  (Nim.availableActionsList piles).toFinset

/-- The player that is not the given player (assumes 0 or 1). -/
def Nim.other_player (player : ℕ) : ℕ :=
  if player = 1 then 0 else 1

/-- Switch the current player to the other player. -/
def Nim.switch_player (g : Nim) : Nim :=
  { g with player := Nim.other_player g.player }

/-- The three exceptions the move operation can raise. -/
inductive MoveErr where
  | gameAlreadyWon
  | invalidPile
  | invalidCount
deriving DecidableEq, Repr

/-- Make a move for the current player.  Returns the raised error (if any)
together with the state as it stands when the call returns or raises; the
source checks all error conditions before mutating, so the error branches
carry the entry state unchanged. -/
def Nim.move (g : Nim) (a : NimAction) : Option MoveErr × Nim :=
  let pile : ℤ := a.1
  let count : ℤ := a.2
  if g.winner.isSome then
    (some MoveErr.gameAlreadyWon, g)
  else if pile < 0 ∨ (g.piles.length : ℤ) ≤ pile then
    (some MoveErr.invalidPile, g)
  else if count < 1 ∨ (g.piles.getD pile.toNat 0 : ℤ) < count then
    (some MoveErr.invalidCount, g)
  else
    let g1 : Nim := { g with piles := g.piles.set pile.toNat (g.piles.getD pile.toNat 0 - count.toNat) }
    let g2 : Nim := g1.switch_player
    if g2.piles.all (fun x => x = 0) then
      (none, { g2 with winner := some g2.player })
    else
      (none, g2)

/-- Keys of the Q-table: the pile configuration tuple and an action. -/
abbrev QKey : Type := List ℕ × NimAction

/-- Lookup in the Q-table, mirroring Python dict.get: the value stored at
the key, or none when the key is absent.  A pure read. -/
def dictGet (q : List (QKey × ℚ)) (k : QKey) : Option ℚ :=
  (q.find? (fun e => decide (e.1 = k))).map (fun e => e.2)

/-- Store a value at a key, mirroring Python dict assignment: the key holds
exactly the new value afterwards, all other keys are untouched. -/
def dictSet (q : List (QKey × ℚ)) (k : QKey) (v : ℚ) : List (QKey × ℚ) :=
  (k, v) :: q.filter (fun e => decide (e.1 ≠ k))

/-- Python truthiness applied to an optional Q-value: a missing entry and a
stored zero both yield 0, any other stored value yields itself. -/
def truthyOrZero : Option ℚ → ℚ
  | none => 0
  | some v => if v = 0 then 0 else v

/-- The Q-learning agent: the Q-table plus the two hyperparameters. -/
structure NimAI where
  q : List (QKey × ℚ)
  alpha : ℚ
  epsilon : ℚ
deriving DecidableEq, Repr

/-- Agent constructor: empty Q-table and the given rates (the program
defaults are alpha = 0.5 and epsilon = 0.1). -/
def NimAI.init (alpha epsilon : ℚ) : NimAI :=
  { q := [], alpha := alpha, epsilon := epsilon }

/-- Return the Q-value for a state and action, or 0 when none exists yet
(the source tests the looked-up value for truthiness, so a stored 0 also
returns 0, numerically the same value). -/
def NimAI.get_q_value (ai : NimAI) (state : List ℕ) (action : NimAction) : ℚ :=
  truthyOrZero (dictGet ai.q (state, action))

/-- Update the Q-value for a state and action from the previous value, the
current reward and the future-reward estimate. -/
def NimAI.update_q_value (ai : NimAI) (state : List ℕ) (action : NimAction)
    (old_q reward future_rewards : ℚ) : NimAI :=
  { ai with q := dictSet ai.q (state, action) (old_q + ai.alpha * ((reward + future_rewards) - old_q)) }

/-- One step of the running-maximum loop of best_future_reward: replace the
best value seen so far when it is still unset or strictly beaten. -/
def bestStep (ai : NimAI) (state : List ℕ) (best : Option ℚ) (action : NimAction) : Option ℚ :=
  let qv : ℚ := truthyOrZero (dictGet ai.q (state, action))
  match best with
  | none => some qv
  | some b => if b < qv then some qv else some b

/-- The maximum Q-value over all actions available in a state, 0 for
missing entries, and 0 when no action is available. -/
def NimAI.best_future_reward (ai : NimAI) (state : List ℕ) : ℚ :=
  let actions := Nim.availableActionsList state
  if actions = [] then 0
  else
    match actions.foldl (bestStep ai state) none with
    | none => 0
    | some b => b

/-- Q-learning update for a transition: reads the old value and the best
future reward of the new state, then stores the recurrence result. -/
def NimAI.update (ai : NimAI) (old_state : List ℕ) (action : NimAction)
    (new_state : List ℕ) (reward : ℚ) : NimAI :=
  let old := ai.get_q_value old_state action
  let best_future := ai.best_future_reward new_state
  ai.update_q_value old_state action old reward best_future

/-- The one failure of action selection: choosing from an empty sequence
(the Python random.choice IndexError). -/
inductive ChooseErr where
  | indexError
deriving DecidableEq, Repr

/-- One step of the best-action loop of choose_action: track the pair of
best value and best action, replaced when unset or strictly beaten. -/
def chooseStep (ai : NimAI) (state : List ℕ) (acc : Option (ℚ × NimAction)) (action : NimAction) :
    Option (ℚ × NimAction) :=
  let qv : ℚ := truthyOrZero (dictGet ai.q (state, action))
  match acc with
  | none => some (qv, action)
  | some p => if p.1 < qv then some (qv, action) else some p

/-- Choose an action for a state.  The random draw r and the random choice
index c stand in for the process-wide random source.  When explore is on
and the draw falls below epsilon, a uniformly random available action is
returned (failing on an empty set); otherwise the first action of maximal
Q-value in iteration order is returned, or none when no action exists. -/
def NimAI.choose_action (ai : NimAI) (state : List ℕ) (explore : Bool) (r : ℚ) (c : ℕ) :
    Except ChooseErr (Option NimAction) :=
  let actions := Nim.availableActionsList state
  if explore ∧ r < ai.epsilon then
    match actions with
    | [] => Except.error ChooseErr.indexError
    | a :: rest => Except.ok (some ((a :: rest).getD (c % (a :: rest).length) a))
  else
    Except.ok ((actions.foldl (chooseStep ai state) none).map (fun p => p.2))

/-- The per-player record of the last state and action taken. -/
abbrev Memo : Type := List ℕ × NimAction

/-- The two last-move slots, for players 0 and 1. -/
abbrev Lasts : Type := Option Memo × Option Memo

/-- Read the last-move slot of a player. -/
def getLast (l : Lasts) (p : ℕ) : Option Memo :=
  if p = 0 then l.1 else l.2

/-- Write the last-move slot of a player. -/
def setLast (l : Lasts) (p : ℕ) (m : Memo) : Lasts :=
  if p = 0 then (some m, l.2) else (l.1, some m)

/-- One training game of the driver, with explicit fuel standing for the
unbounded while loop.  Returns none when the fuel runs out or when the
Python code would crash: a failed or empty action choice, a rejected move,
or a terminal update reading an unset last-move slot.  Each ply consumes
one oracle entry. -/
def gameLoop : ℕ → NimAI → (ℕ → ℚ × ℕ) → ℕ → Nim → Lasts → Option NimAI
  | 0, _, _, _, _, _ => none
  | fuel + 1, ai, oracle, k, g, last =>
    let state := g.piles
    match ai.choose_action g.piles true (oracle k).1 (oracle k).2 with
    | Except.error _ => none
    | Except.ok none => none
    | Except.ok (some action) =>
      let last2 := setLast last g.player (state, action)
      match g.move action with
      | (some _, _) => none
      | (none, g2) =>
        let new_state := g2.piles
        if g2.winner.isSome then
          let ai2 := ai.update state action new_state (-1)
          match getLast last2 g2.player with
          | none => none
          | some m => some (ai2.update m.1 m.2 new_state 1)
        else
          match getLast last2 g2.player with
          | some m => gameLoop fuel (ai.update m.1 m.2 new_state 0) oracle (k + 1) g2 last2
          | none => gameLoop fuel ai oracle (k + 1) g2 last2

/-- Run the given number of training games, threading the agent and the
oracle position, and counting the games completed. -/
def trainAux : ℕ → NimAI → (ℕ → ℚ × ℕ) → ℕ → Option (NimAI × ℕ)
  | 0, ai, _, _ => some (ai, 0)
  | n + 1, ai, oracle, k =>
    match gameLoop (Nim.initialDefault.sum + 1) ai oracle k (Nim.init Nim.initialDefault) (none, none) with
    | none => none
    | some ai2 =>
      match trainAux n ai2 oracle (k + Nim.initialDefault.sum + 1) with
      | none => none
      | some p => some (p.1, p.2 + 1)

/-- Train an AI by playing n games against itself, starting from a fresh
agent with the default hyperparameters. -/
def train (n : ℕ) (oracle : ℕ → ℚ × ℕ) : Option (NimAI × ℕ) :=
  trainAux n (NimAI.init (1/2) (1/10)) oracle 0

/-- The states reachable from a given initial pile list: the freshly
constructed game, closed under successful moves. -/
inductive Nim.Reaches (initial : List ℕ) : Nim → Prop
  | base : Nim.Reaches initial (Nim.init initial)
  | step {g : Nim} {a : NimAction} {g2 : Nim} :
      Nim.Reaches initial g → g.move a = (none, g2) → Nim.Reaches initial g2

instance : DecidableEq (Except ChooseErr (Option NimAction)) := fun a b =>
  match a, b with
  | Except.ok x, Except.ok y => decidable_of_iff (x = y) (by simp)
  | Except.error x, Except.error y => decidable_of_iff (x = y) (by simp)
  | Except.ok _, Except.error _ => isFalse (by simp)
  | Except.error _, Except.ok _ => isFalse (by simp)

/-- Membership in the available-action list is exactly the in-range
condition of the claim. -/
lemma mem_availableActionsList (p : List ℕ) (i j : ℤ) :
    (i, j) ∈ Nim.availableActionsList p ↔
      0 ≤ i ∧ i < (p.length : ℤ) ∧ 1 ≤ j ∧ j ≤ (p.getD i.toNat 0 : ℤ) := by
  unfold Nim.availableActionsList
  constructor
  · intro h
    rw [List.mem_flatMap] at h
    obtain ⟨i0, hi0l, hmem⟩ := h
    rw [List.mem_range] at hi0l
    rw [List.mem_map] at hmem
    obtain ⟨j0, hj0l, heq⟩ := hmem
    rw [List.mem_range] at hj0l
    rw [Prod.mk.injEq] at heq
    obtain ⟨h1, h2⟩ := heq
    subst h1
    subst h2
    simp only [Int.toNat_natCast]
    omega
  · rintro ⟨h0, hlen, h1, hle⟩
    rw [List.mem_flatMap]
    refine ⟨i.toNat, ?_, ?_⟩
    · rw [List.mem_range]
      omega
    · rw [List.mem_map]
      refine ⟨(j - 1).toNat, ?_, ?_⟩
      · rw [List.mem_range]
        omega
      · rw [Prod.mk.injEq]
        constructor <;> omega

/-- The generated action list has no duplicates. -/
lemma nodup_availableActionsList (p : List ℕ) : (Nim.availableActionsList p).Nodup := by
  unfold Nim.availableActionsList
  rw [List.nodup_flatMap]
  constructor
  · intro i _
    apply List.Nodup.map
    · intro a b hab
      rw [Prod.mk.injEq] at hab
      omega
    · exact List.nodup_range _
  · refine List.Pairwise.imp ?_ (List.pairwise_lt_range _)
    intro a b hab
    intro x hxa hxb
    rw [List.mem_map] at hxa hxb
    obtain ⟨ja, _, rfl⟩ := hxa
    obtain ⟨jb, _, heq⟩ := hxb
    rw [Prod.mk.injEq] at heq
    omega

/-- Auxiliary: summing the lookup of every index recovers the list sum. -/
lemma map_getD_range_sum (p : List ℕ) :
    ((List.range p.length).map (fun i => p.getD i 0)).sum = p.sum := by
  induction p with
  | nil => rfl
  | cons x xs ih =>
    rw [List.length_cons, List.range_succ_eq_map, List.map_cons, List.map_map]
    have he : (fun i => (x :: xs).getD i 0) ∘ Nat.succ = fun i => xs.getD i 0 := by
      funext i
      simp [List.getD_cons_succ]
    rw [he, List.sum_cons, List.getD_cons_zero, ih, List.sum_cons]

/-- The length of the generated action list is the total pile count. -/
lemma length_availableActionsList (p : List ℕ) :
    (Nim.availableActionsList p).length = p.sum := by
  unfold Nim.availableActionsList
  rw [List.length_flatMap]
  simp only [Function.comp_def, List.length_map, List.length_range]
  exact map_getD_range_sum p

/-- C7: for every pile configuration p of non-negative integers, the
available actions are exactly the pairs (i, j) with 0 <= i < length p and
1 <= j <= p[i], the size of the set is the sum of p, and in particular the
set is empty when every pile is 0. -/
theorem c7_available_actions_spec (p : List ℕ) :
    (∀ i j : ℤ, (i, j) ∈ Nim.available_actions p ↔
      0 ≤ i ∧ i < (p.length : ℤ) ∧ 1 ≤ j ∧ j ≤ (p.getD i.toNat 0 : ℤ)) ∧
    (Nim.available_actions p).card = p.sum ∧
    ((∀ x ∈ p, x = 0) → Nim.available_actions p = ∅) := by
  have hmem : ∀ i j : ℤ, (i, j) ∈ Nim.available_actions p ↔
      0 ≤ i ∧ i < (p.length : ℤ) ∧ 1 ≤ j ∧ j ≤ (p.getD i.toNat 0 : ℤ) := by
    intro i j
    rw [Nim.available_actions, List.mem_toFinset]
    exact mem_availableActionsList p i j
  refine ⟨hmem, ?_, ?_⟩
  · rw [Nim.available_actions, List.toFinset_card_of_nodup (nodup_availableActionsList p)]
    exact length_availableActionsList p
  · intro hz
    rw [Finset.eq_empty_iff_forall_not_mem]
    rintro ⟨i, j⟩ hij
    rw [hmem i j] at hij
    obtain ⟨h0, hlen, h1, hle⟩ := hij
    have hlt : i.toNat < p.length := by omega
    have hg : p.getD i.toNat 0 = p.get ⟨i.toNat, hlt⟩ := List.getD_eq_getElem p 0 hlt
    have hz2 : p.get ⟨i.toNat, hlt⟩ = 0 := hz _ (List.get_mem p i.toNat hlt)
    omega

/-- Witness for C7: the empty-set conclusion evaluated at a concrete
all-zero configuration. -/
theorem c7_witness : Nim.available_actions [0, 0] = ∅ :=
  (c7_available_actions_spec [0, 0]).2.2 (by decide)

/-- A move on a terminal state raises the game-already-won error. -/
lemma move_of_winner (g : Nim) (a : NimAction) (h : g.winner.isSome) :
    g.move a = (some MoveErr.gameAlreadyWon, g) := by
  unfold Nim.move
  rw [if_pos h]

/-- A move with an out-of-range pile index raises the invalid-pile error. -/
lemma move_of_invalidPile (g : Nim) (a : NimAction) (hw : ¬ g.winner.isSome = true)
    (hp : a.1 < 0 ∨ (g.piles.length : ℤ) ≤ a.1) :
    g.move a = (some MoveErr.invalidPile, g) := by
  unfold Nim.move
  rw [if_neg hw, if_pos hp]

/-- A move with an out-of-range count raises the invalid-count error. -/
lemma move_of_invalidCount (g : Nim) (a : NimAction) (hw : ¬ g.winner.isSome = true)
    (hp : ¬ (a.1 < 0 ∨ (g.piles.length : ℤ) ≤ a.1))
    (hc : a.2 < 1 ∨ (g.piles.getD a.1.toNat 0 : ℤ) < a.2) :
    g.move a = (some MoveErr.invalidCount, g) := by
  unfold Nim.move
  rw [if_neg hw, if_neg hp, if_pos hc]

/-- A legal move succeeds: the chosen pile is decremented, the player is
switched, and the new current player is recorded as winner exactly when
every pile has become 0. -/
lemma move_of_ok (g : Nim) (a : NimAction) (hw : ¬ g.winner.isSome = true)
    (hp : ¬ (a.1 < 0 ∨ (g.piles.length : ℤ) ≤ a.1))
    (hc : ¬ (a.2 < 1 ∨ (g.piles.getD a.1.toNat 0 : ℤ) < a.2)) :
    g.move a =
      (none,
        { piles := g.piles.set a.1.toNat (g.piles.getD a.1.toNat 0 - a.2.toNat),
          player := Nim.other_player g.player,
          winner :=
            if (g.piles.set a.1.toNat (g.piles.getD a.1.toNat 0 - a.2.toNat)).all (fun x => x = 0)
            then some (Nim.other_player g.player) else g.winner }) := by
  unfold Nim.move
  rw [if_neg hw, if_neg hp, if_neg hc]
  unfold Nim.switch_player
  dsimp only
  split
  · rfl
  · rfl

/-- C5: for every state and action, move raises the game-already-won error
exactly when a winner is set; otherwise raises the invalid-pile error
exactly when the pile index is outside the range of pile positions;
otherwise raises the invalid-count error exactly when the count is below 1
or above the chosen pile; otherwise succeeds. -/
theorem c5_move_error_conditions (g : Nim) (a : NimAction) :
    ((g.move a).1 = some MoveErr.gameAlreadyWon ↔ g.winner.isSome = true) ∧
    ((g.move a).1 = some MoveErr.invalidPile ↔
      g.winner = none ∧ (a.1 < 0 ∨ (g.piles.length : ℤ) ≤ a.1)) ∧
    ((g.move a).1 = some MoveErr.invalidCount ↔
      g.winner = none ∧ 0 ≤ a.1 ∧ a.1 < (g.piles.length : ℤ) ∧
        (a.2 < 1 ∨ (g.piles.getD a.1.toNat 0 : ℤ) < a.2)) ∧
    ((g.move a).1 = none ↔
      g.winner = none ∧ 0 ≤ a.1 ∧ a.1 < (g.piles.length : ℤ) ∧
        1 ≤ a.2 ∧ a.2 ≤ (g.piles.getD a.1.toNat 0 : ℤ)) := by
  by_cases hw : g.winner.isSome = true
  · have hwn : g.winner ≠ none := Option.isSome_iff_ne_none.mp hw
    rw [move_of_winner g a hw]
    exact ⟨by simp [hw], by simp [hwn], by simp [hwn], by simp [hwn]⟩
  · have hwn : g.winner = none := Option.not_isSome_iff_eq_none.mp hw
    by_cases hp : a.1 < 0 ∨ (g.piles.length : ℤ) ≤ a.1
    · rw [move_of_invalidPile g a hw hp]
      refine ⟨by simp [hwn], ⟨fun _ => ⟨hwn, hp⟩, fun _ => rfl⟩, ?_, ?_⟩
      · constructor
        · intro h
          simp at h
        · rintro ⟨_, h1, h2, _⟩
          exfalso
          rcases hp with h | h <;> omega
      · constructor
        · intro h
          simp at h
        · rintro ⟨_, h1, h2, _⟩
          exfalso
          rcases hp with h | h <;> omega
    · by_cases hc : a.2 < 1 ∨ (g.piles.getD a.1.toNat 0 : ℤ) < a.2
      · rw [move_of_invalidCount g a hw hp hc]
        push_neg at hp
        refine ⟨by simp [hwn], ?_, ?_, ?_⟩
        · constructor
          · intro h
            simp at h
          · rintro ⟨_, hd⟩
            exfalso
            rcases hd with h | h <;> omega
        · constructor
          · intro _
            exact ⟨hwn, hp.1, hp.2, hc⟩
          · intro _
            rfl
        · constructor
          · intro h
            simp at h
          · rintro ⟨_, _, _, h1, h2⟩
            exfalso
            rcases hc with h | h <;> omega
      · rw [move_of_ok g a hw hp hc]
        push_neg at hp
        push_neg at hc
        refine ⟨by simp [hwn], ?_, ?_, ?_⟩
        · constructor
          · intro h
            simp at h
          · rintro ⟨_, hd⟩
            exfalso
            rcases hd with h | h <;> omega
        · constructor
          · intro h
            simp at h
          · rintro ⟨_, _, _, hd⟩
            exfalso
            rcases hd with h | h <;> omega
        · constructor
          · intro _
            exact ⟨hwn, hp.1, hp.2, by omega, by omega⟩
          · intro _
            rfl

/-- C10: whenever move raises an error, the returned state is the entry
state unchanged: the checks all happen before any mutation. -/
theorem c10_move_error_preserves_state (g : Nim) (a : NimAction) (e : MoveErr)
    (h : (g.move a).1 = some e) : (g.move a).2 = g := by
  by_cases hw : g.winner.isSome = true
  · rw [move_of_winner g a hw]
  · by_cases hp : a.1 < 0 ∨ (g.piles.length : ℤ) ≤ a.1
    · rw [move_of_invalidPile g a hw hp]
    · by_cases hc : a.2 < 1 ∨ (g.piles.getD a.1.toNat 0 : ℤ) < a.2
      · rw [move_of_invalidCount g a hw hp hc]
      · rw [move_of_ok g a hw hp hc] at h
        simp at h

/-- Witness for C10: a rejected move at a concrete state, with the state
returned unchanged. -/
theorem c10_witness : (Nim.move (Nim.init [1]) (1, 1)).2 = Nim.init [1] :=
  c10_move_error_preserves_state (Nim.init [1]) (1, 1) MoveErr.invalidPile (by decide)

/-- C1 counterexample: applying move (0, 1) to a fresh game on piles [1]
does not record the mover (player 0) as winner. -/
theorem c1_counterexample :
    ¬ ((Nim.move (Nim.init [1]) (0, 1)).2.winner = some 0) := by decide

/-- C1 amended: applying move (0, 1) to a fresh game on piles [1] succeeds,
leaves piles [0], switches the current player from 0 to 1, and records the
new current player 1 (the opponent of the mover) as winner. -/
theorem c1_single_pile_game :
    Nim.move (Nim.init [1]) (0, 1) =
      (none, { piles := [0], player := 1, winner := some 1 }) := by decide

/-- Looking up the key just stored returns exactly the stored value. -/
lemma dictGet_dictSet_self (q : List (QKey × ℚ)) (k : QKey) (v : ℚ) :
    dictGet (dictSet q k v) k = some v := by
  unfold dictGet dictSet
  rw [List.find?_cons_of_pos]
  · rfl
  · simp

/-- C8: lookup on the empty table returns 0 for every key; after a store,
lookup of the same key returns exactly the stored value.  Lookup is a pure
function of the table, so it can not mutate it. -/
theorem c8_q_table_get_set :
    (∀ (alpha epsilon : ℚ) (s : List ℕ) (a : NimAction),
      (NimAI.init alpha epsilon).get_q_value s a = 0) ∧
    (∀ (ai : NimAI) (s : List ℕ) (a : NimAction) (v : ℚ),
      ({ ai with q := dictSet ai.q (s, a) v } : NimAI).get_q_value s a = v) := by
  constructor
  · intro alpha epsilon s a
    rfl
  · intro ai s a v
    unfold NimAI.get_q_value
    show truthyOrZero (dictGet (dictSet ai.q (s, a) v) (s, a)) = v
    rw [dictGet_dictSet_self]
    unfold truthyOrZero
    by_cases hv : v = 0
    · simp [hv]
    · simp [hv]

/-- C4: update stores at the transition key exactly the Q-learning
recurrence value, and in particular alpha times the reward when the old
value and the best future reward are both 0. -/
theorem c4_update_formula :
    (∀ (ai : NimAI) (s : List ℕ) (a : NimAction) (s2 : List ℕ) (r : ℚ),
      dictGet (ai.update s a s2 r).q (s, a) =
        some (ai.get_q_value s a +
          ai.alpha * ((r + ai.best_future_reward s2) - ai.get_q_value s a))) ∧
    (∀ (ai : NimAI) (s : List ℕ) (a : NimAction) (s2 : List ℕ) (r : ℚ),
      ai.get_q_value s a = 0 → ai.best_future_reward s2 = 0 →
      dictGet (ai.update s a s2 r).q (s, a) = some (ai.alpha * r)) := by
  have h1 : ∀ (ai : NimAI) (s : List ℕ) (a : NimAction) (s2 : List ℕ) (r : ℚ),
      dictGet (ai.update s a s2 r).q (s, a) =
        some (ai.get_q_value s a +
          ai.alpha * ((r + ai.best_future_reward s2) - ai.get_q_value s a)) := by
    intro ai s a s2 r
    unfold NimAI.update NimAI.update_q_value
    exact dictGet_dictSet_self ai.q (s, a) _
  refine ⟨h1, ?_⟩
  intro ai s a s2 r hg hb
  rw [h1 ai s a s2 r, hg, hb]
  norm_num

/-- Witness for C4: the special case evaluated on the empty agent, where
the stored value is alpha times the reward. -/
theorem c4_witness :
    dictGet ((NimAI.init (1/2) (1/10)).update [1] (0, 1) [0] 1).q ([1], (0, 1)) =
      some ((NimAI.init (1/2) (1/10)).alpha * 1) :=
  c4_update_formula.2 (NimAI.init (1/2) (1/10)) [1] (0, 1) [0] 1 rfl rfl

/-- C2 counterexample: on the empty-action state [0] with exploration off,
choose_action returns normally with no action instead of raising any
error; no NoAvailableActions error condition exists in the program. -/
theorem c2_counterexample :
    (NimAI.init (1/2) (1/10)).choose_action [0] false 0 0 = Except.ok none := rfl

/-- C2 amended: on a state with no available action, choose_action returns
None (no action) rather than raising when exploration is off, and also
when exploration is on but the draw does not trigger it; only the
triggered exploration branch fails, with an index error from choosing out
of an empty sequence. -/
theorem c2_choose_action_empty (ai : NimAI) (s : List ℕ) (r : ℚ) (c : ℕ)
    (h : Nim.availableActionsList s = []) :
    ai.choose_action s false r c = Except.ok none ∧
    (r < ai.epsilon → ai.choose_action s true r c = Except.error ChooseErr.indexError) ∧
    (¬ r < ai.epsilon → ai.choose_action s true r c = Except.ok none) := by
  unfold NimAI.choose_action
  refine ⟨?_, ?_, ?_⟩
  · simp [h]
  · intro hr
    simp [h, hr]
  · intro hr
    simp [h, hr]

/-- Witness for C2: the three branches evaluated at the concrete
empty-action state [0] with draws on both sides of epsilon. -/
theorem c2_witness :
    (NimAI.init (1/2) (1/10)).choose_action [0] false 0 0 = Except.ok none ∧
    (NimAI.init (1/2) (1/10)).choose_action [0] true 0 0 = Except.error ChooseErr.indexError ∧
    (NimAI.init (1/2) (1/10)).choose_action [0] true 1 0 = Except.ok none :=
  ⟨(c2_choose_action_empty (NimAI.init (1/2) (1/10)) [0] 0 0 rfl).1,
   (c2_choose_action_empty (NimAI.init (1/2) (1/10)) [0] 0 0 rfl).2.1 (by norm_num [NimAI.init]),
   (c2_choose_action_empty (NimAI.init (1/2) (1/10)) [0] 1 0 rfl).2.2 (by norm_num [NimAI.init])⟩

lemma bestStep_isSome (ai : NimAI) (s : List ℕ) (acc : Option ℚ) (a : NimAction) :
    (bestStep ai s acc a).isSome := by
  unfold bestStep
  cases acc with
  | none => rfl
  | some b =>
    dsimp only
    split <;> rfl

lemma bestStep_foldl_isSome (ai : NimAI) (s : List ℕ) :
    ∀ (l : List NimAction) (acc : Option ℚ), (l ≠ [] ∨ acc.isSome) →
      (l.foldl (bestStep ai s) acc).isSome := by
  intro l
  induction l with
  | nil =>
    intro acc h
    rcases h with h | h
    · exact absurd rfl h
    · exact h
  | cons x xs ih =>
    intro acc _
    rw [List.foldl_cons]
    exact ih (bestStep ai s acc x) (Or.inr (bestStep_isSome ai s acc x))

lemma bestStep_acc_le (ai : NimAI) (s : List ℕ) :
    ∀ (l : List NimAction) (b v : ℚ), l.foldl (bestStep ai s) (some b) = some v → b ≤ v := by
  intro l
  induction l with
  | nil =>
    intro b v h
    rw [List.foldl_nil] at h
    cases h
    exact le_refl _
  | cons x xs ih =>
    intro b v h
    rw [List.foldl_cons] at h
    unfold bestStep at h
    dsimp only at h
    by_cases hb : b < truthyOrZero (dictGet ai.q (s, x))
    · rw [if_pos hb] at h
      exact le_of_lt (lt_of_lt_of_le hb (ih _ v h))
    · rw [if_neg hb] at h
      exact ih b v h

lemma bestStep_foldl_mem_le (ai : NimAI) (s : List ℕ) :
    ∀ (l : List NimAction) (acc : Option ℚ) (v : ℚ),
      l.foldl (bestStep ai s) acc = some v →
      ∀ a ∈ l, truthyOrZero (dictGet ai.q (s, a)) ≤ v := by
  intro l
  induction l with
  | nil =>
    intro acc v _ a ha
    exact absurd ha (List.not_mem_nil a)
  | cons x xs ih =>
    intro acc v h a ha
    rw [List.foldl_cons] at h
    rcases List.mem_cons.mp ha with rfl | hmem
    · have hstep : ∃ b2, bestStep ai s acc a = some b2 ∧ truthyOrZero (dictGet ai.q (s, a)) ≤ b2 := by
        unfold bestStep
        cases acc with
        | none => exact ⟨_, rfl, le_refl _⟩
        | some b =>
          dsimp only
          by_cases hb : b < truthyOrZero (dictGet ai.q (s, a))
          · rw [if_pos hb]
            exact ⟨_, rfl, le_refl _⟩
          · rw [if_neg hb]
            exact ⟨b, rfl, not_lt.mp hb⟩
      obtain ⟨b2, hb2, hle⟩ := hstep
      rw [hb2] at h
      exact le_trans hle (bestStep_acc_le ai s xs b2 v h)
    · exact ih (bestStep ai s acc x) v h a hmem

lemma bestStep_foldl_mem_or (ai : NimAI) (s : List ℕ) :
    ∀ (l : List NimAction) (acc : Option ℚ) (v : ℚ),
      l.foldl (bestStep ai s) acc = some v →
      (∃ a ∈ l, v = truthyOrZero (dictGet ai.q (s, a))) ∨ acc = some v := by
  intro l
  induction l with
  | nil =>
    intro acc v h
    rw [List.foldl_nil] at h
    exact Or.inr h
  | cons x xs ih =>
    intro acc v h
    rw [List.foldl_cons] at h
    rcases ih (bestStep ai s acc x) v h with ⟨a, ha, hv⟩ | hacc
    · exact Or.inl ⟨a, List.mem_cons_of_mem x ha, hv⟩
    · unfold bestStep at hacc
      cases acc with
      | none =>
        dsimp only at hacc
        cases hacc
        exact Or.inl ⟨x, List.mem_cons_self x xs, rfl⟩
      | some b =>
        dsimp only at hacc
        by_cases hb : b < truthyOrZero (dictGet ai.q (s, x))
        · rw [if_pos hb] at hacc
          cases hacc
          exact Or.inl ⟨x, List.mem_cons_self x xs, rfl⟩
        · rw [if_neg hb] at hacc
          exact Or.inr hacc

lemma best_future_reward_of_empty (ai : NimAI) (state : List ℕ)
    (h : Nim.availableActionsList state = []) : ai.best_future_reward state = 0 := by
  unfold NimAI.best_future_reward
  simp [h]

lemma best_future_reward_eq (ai : NimAI) (state : List ℕ) (v : ℚ)
    (h : Nim.availableActionsList state ≠ [])
    (hv : (Nim.availableActionsList state).foldl (bestStep ai state) none = some v) :
    ai.best_future_reward state = v := by
  unfold NimAI.best_future_reward
  rw [if_neg h, hv]

/-- C6: best_future_reward returns 0 when no action is available in the
state, and otherwise returns the maximum over all available actions of the
looked-up value, with absent pairs contributing 0: every available action
has value at most the result, and the result is attained by some available
action. -/
theorem c6_best_future_reward_spec (ai : NimAI) (state : List ℕ) :
    (Nim.availableActionsList state = [] → ai.best_future_reward state = 0) ∧
    (Nim.availableActionsList state ≠ [] →
      (∀ a ∈ Nim.available_actions state,
        ai.get_q_value state a ≤ ai.best_future_reward state) ∧
      (∃ a ∈ Nim.available_actions state,
        ai.best_future_reward state = ai.get_q_value state a)) := by
  constructor
  · exact best_future_reward_of_empty ai state
  · intro h
    have hs := bestStep_foldl_isSome ai state (Nim.availableActionsList state) none (Or.inl h)
    obtain ⟨v, hv⟩ := Option.isSome_iff_exists.mp hs
    have hbfr := best_future_reward_eq ai state v h hv
    constructor
    · intro a ha
      rw [Nim.available_actions, List.mem_toFinset] at ha
      rw [hbfr]
      exact bestStep_foldl_mem_le ai state _ none v hv a ha
    · rcases bestStep_foldl_mem_or ai state _ none v hv with ⟨a, ha, hval⟩ | hacc
      · refine ⟨a, ?_, ?_⟩
        · rw [Nim.available_actions, List.mem_toFinset]
          exact ha
        · rw [hbfr]
          exact hval
      · cases hacc

/-- Witness for C6: both branches evaluated at concrete states, the empty
state [0] and the two-action state [2]. -/
theorem c6_witness :
    (NimAI.init (1/2) (1/10)).best_future_reward [0] = 0 ∧
    ∃ a ∈ Nim.available_actions [2],
      (NimAI.init (1/2) (1/10)).best_future_reward [2] =
        (NimAI.init (1/2) (1/10)).get_q_value [2] a :=
  ⟨(c6_best_future_reward_spec (NimAI.init (1/2) (1/10)) [0]).1 rfl,
   ((c6_best_future_reward_spec (NimAI.init (1/2) (1/10)) [2]).2 (by decide)).2⟩

lemma move_ok_inv (g : Nim) (a : NimAction) (g2 : Nim) (h : g.move a = (none, g2)) :
    g.winner = none ∧
    g2.piles = g.piles.set a.1.toNat (g.piles.getD a.1.toNat 0 - a.2.toNat) ∧
    g2.player = Nim.other_player g.player ∧
    (g2.winner = if g2.piles.all (fun x => x = 0) then some g2.player else none) ∧
    0 ≤ a.1 ∧ a.1 < (g.piles.length : ℤ) ∧ 1 ≤ a.2 ∧ a.2 ≤ (g.piles.getD a.1.toNat 0 : ℤ) := by
  by_cases hw : g.winner.isSome = true
  · rw [move_of_winner g a hw, Prod.mk.injEq] at h
    exact absurd h.1 (by simp)
  · have hwn : g.winner = none := Option.not_isSome_iff_eq_none.mp hw
    by_cases hp : a.1 < 0 ∨ (g.piles.length : ℤ) ≤ a.1
    · rw [move_of_invalidPile g a hw hp, Prod.mk.injEq] at h
      exact absurd h.1 (by simp)
    · by_cases hc : a.2 < 1 ∨ (g.piles.getD a.1.toNat 0 : ℤ) < a.2
      · rw [move_of_invalidCount g a hw hp hc, Prod.mk.injEq] at h
        exact absurd h.1 (by simp)
      · rw [move_of_ok g a hw hp hc, Prod.mk.injEq] at h
        obtain ⟨-, h2⟩ := h
        subst h2
        push_neg at hp
        push_neg at hc
        refine ⟨hwn, rfl, rfl, ?_, hp.1, hp.2, hc.1, hc.2⟩
        dsimp only
        split
        · rfl
        · exact hwn


lemma getD_set_le (p : List ℕ) (idx : ℕ) (w : ℕ) (hw : w ≤ p.getD idx 0) (i : ℕ) :
    (p.set idx w).getD i 0 ≤ p.getD i 0 := by
  rw [List.getD_eq_getElem?_getD, List.getD_eq_getElem?_getD]
  by_cases hi : idx = i
  · subst hi
    by_cases hlt : idx < p.length
    · rw [List.getElem?_set_self hlt]
      rw [List.getD_eq_getElem?_getD] at hw
      simpa using hw
    · rw [List.set_eq_of_length_le (by omega)]
  · rw [List.getElem?_set_ne hi]

lemma sum_set_add (p : List ℕ) :
    ∀ (idx : ℕ) (w : ℕ), idx < p.length → (p.set idx w).sum + p.getD idx 0 = p.sum + w := by
  induction p with
  | nil =>
    intro idx w h
    exact absurd h (by simp)
  | cons x xs ih =>
    intro idx w h
    cases idx with
    | zero =>
      simp only [List.set_cons_zero, List.sum_cons, List.getD_cons_zero]
      omega
    | succ n =>
      simp only [List.set_cons_succ, List.sum_cons, List.getD_cons_succ]
      have := ih n w (by simpa using h)
      omega

lemma sum_move_lt (g : Nim) (a : NimAction) (g2 : Nim) (h : g.move a = (none, g2)) :
    g2.piles.sum < g.piles.sum := by
  obtain ⟨-, hpiles, -, -, h0, hlen, h1, hle⟩ := move_ok_inv g a g2 h
  have hidx : a.1.toNat < g.piles.length := by omega
  have hw : g.piles.getD a.1.toNat 0 - a.2.toNat < g.piles.getD a.1.toNat 0 := by omega
  have := sum_set_add g.piles a.1.toNat (g.piles.getD a.1.toNat 0 - a.2.toNat) hidx
  rw [hpiles]
  omega

lemma move_ok_winner_iff (g : Nim) (a : NimAction) (g2 : Nim) (h : g.move a = (none, g2)) :
    g2.winner.isSome = true ↔ ∀ x ∈ g2.piles, x = 0 := by
  obtain ⟨-, -, -, hwin, -⟩ := move_ok_inv g a g2 h
  rw [hwin]
  by_cases hz : g2.piles.all (fun x => x = 0) = true
  · rw [if_pos hz]
    simp only [Option.isSome_some, true_iff]
    simpa using hz
  · rw [if_neg hz]
    simp only [Option.isSome_none, Bool.false_eq_true, false_iff]
    intro hall
    exact hz (by simpa using hall)

/-- C3 counterexample: the fresh game on the non-negative initial pile
list [0] is reachable (by the empty move sequence) yet has every pile 0
with no winner set, refuting the unrestricted winner-iff-all-zero
invariant. -/
theorem c3_counterexample :
    Nim.Reaches [0] (Nim.init [0]) ∧
    ¬ ((Nim.init [0]).winner.isSome = true ↔ ∀ x ∈ (Nim.init [0]).piles, x = 0) :=
  ⟨Nim.Reaches.base, by decide⟩

/-- C3 amended: for every initial pile list with positive total (at least
one non-empty pile), every reachable state has winner set exactly when all
piles are 0; moreover (for all states) no move is legal once winner is
set, and every successful move only ever decreases each pile value. -/
theorem c3_invariants (initial : List ℕ) (hpos : 0 < initial.sum) :
    (∀ g : Nim, Nim.Reaches initial g →
      (g.winner.isSome = true ↔ ∀ x ∈ g.piles, x = 0)) ∧
    (∀ (g : Nim) (a : NimAction), g.winner.isSome = true → (g.move a).1 ≠ none) ∧
    (∀ (g : Nim) (a : NimAction) (g2 : Nim), g.move a = (none, g2) →
      ∀ i : ℕ, g2.piles.getD i 0 ≤ g.piles.getD i 0) := by
  refine ⟨?_, ?_, ?_⟩
  · intro g hg
    induction hg with
    | base =>
      simp only [Nim.init, Option.isSome_none, Bool.false_eq_true, false_iff]
      intro hall
      have : initial.sum = 0 := List.sum_eq_zero_iff.mpr hall
      omega
    | step hr hmove ih =>
      exact move_ok_winner_iff _ _ _ hmove
  · intro g a hw
    rw [move_of_winner g a hw]
    simp
  · intro g a g2 h i
    obtain ⟨-, hpiles, -, -, h0, hlen, h1, hle⟩ := move_ok_inv g a g2 h
    rw [hpiles]
    exact getD_set_le g.piles a.1.toNat _ (by omega) i

/-- Witness for C3: the invariant instantiated at the concrete fresh game
on [1], the terminal state after its one move, and that single move. -/
theorem c3_witness :
    ((Nim.init [1]).winner.isSome = true ↔ ∀ x ∈ (Nim.init [1]).piles, x = 0) ∧
    (Nim.move { piles := [0], player := 1, winner := some 1 } (0, 1)).1 ≠ none ∧
    (∀ i : ℕ,
      ({ piles := [0], player := 1, winner := some 1 } : Nim).piles.getD i 0 ≤
        (Nim.init [1]).piles.getD i 0) :=
  ⟨(c3_invariants [1] (by decide)).1 (Nim.init [1]) Nim.Reaches.base,
   (c3_invariants [1] (by decide)).2.1 { piles := [0], player := 1, winner := some 1 } (0, 1) (by decide),
   (c3_invariants [1] (by decide)).2.2 (Nim.init [1]) (0, 1)
     { piles := [0], player := 1, winner := some 1 } (by decide)⟩

lemma avail_ne_nil (p : List ℕ) (h : 0 < p.sum) : Nim.availableActionsList p ≠ [] := by
  intro he
  rw [← length_availableActionsList p, he] at h
  simp at h

lemma chooseStep_isSome (ai : NimAI) (s : List ℕ) (acc : Option (ℚ × NimAction)) (a : NimAction) :
    (chooseStep ai s acc a).isSome := by
  unfold chooseStep
  cases acc with
  | none => rfl
  | some p =>
    dsimp only
    split <;> rfl

lemma chooseStep_foldl_isSome (ai : NimAI) (s : List ℕ) :
    ∀ (l : List NimAction) (acc : Option (ℚ × NimAction)), (l ≠ [] ∨ acc.isSome) →
      (l.foldl (chooseStep ai s) acc).isSome := by
  intro l
  induction l with
  | nil =>
    intro acc h
    rcases h with h | h
    · exact absurd rfl h
    · exact h
  | cons x xs ih =>
    intro acc _
    rw [List.foldl_cons]
    exact ih (chooseStep ai s acc x) (Or.inr (chooseStep_isSome ai s acc x))

lemma chooseStep_foldl_mem (ai : NimAI) (s : List ℕ) :
    ∀ (l : List NimAction) (acc : Option (ℚ × NimAction)) (p : ℚ × NimAction),
      l.foldl (chooseStep ai s) acc = some p → p.2 ∈ l ∨ acc = some p := by
  intro l
  induction l with
  | nil =>
    intro acc p h
    rw [List.foldl_nil] at h
    exact Or.inr h
  | cons x xs ih =>
    intro acc p h
    rw [List.foldl_cons] at h
    rcases ih (chooseStep ai s acc x) p h with hmem | hacc
    · exact Or.inl (List.mem_cons_of_mem x hmem)
    · unfold chooseStep at hacc
      cases acc with
      | none =>
        dsimp only at hacc
        cases hacc
        exact Or.inl (List.mem_cons_self x xs)
      | some q =>
        dsimp only at hacc
        by_cases hb : q.1 < truthyOrZero (dictGet ai.q (s, x))
        · rw [if_pos hb] at hacc
          cases hacc
          exact Or.inl (List.mem_cons_self x xs)
        · rw [if_neg hb] at hacc
          exact Or.inr hacc

lemma choose_action_ok (ai : NimAI) (s : List ℕ) (r : ℚ) (c : ℕ)
    (h : Nim.availableActionsList s ≠ []) :
    ∃ a ∈ Nim.availableActionsList s, ai.choose_action s true r c = Except.ok (some a) := by
  unfold NimAI.choose_action
  by_cases hre : r < ai.epsilon
  · rw [if_pos ⟨rfl, hre⟩]
    cases hl : Nim.availableActionsList s with
    | nil => exact absurd hl h
    | cons a rest =>
      have hlen : c % (a :: rest).length < (a :: rest).length :=
        Nat.mod_lt c (by simp)
      refine ⟨(a :: rest).getD (c % (a :: rest).length) a, ?_, ?_⟩
      · rw [List.getD_eq_getElem (a :: rest) a hlen]
        exact List.getElem_mem hlen
      · rfl
  · rw [if_neg (fun hcon => hre hcon.2)]
    have hs := chooseStep_foldl_isSome ai s (Nim.availableActionsList s) none (Or.inl h)
    obtain ⟨p, hp⟩ := Option.isSome_iff_exists.mp hs
    rcases chooseStep_foldl_mem ai s (Nim.availableActionsList s) none p hp with hmem | hacc
    · refine ⟨p.2, hmem, ?_⟩
      rw [hp]
      rfl
    · cases hacc

lemma move_ok_of_mem (g : Nim) (a : NimAction) (hw : g.winner = none)
    (ha : a ∈ Nim.availableActionsList g.piles) : ∃ g2, g.move a = (none, g2) := by
  have ha2 : (a.1, a.2) ∈ Nim.availableActionsList g.piles := by
    rw [Prod.mk.eta]
    exact ha
  obtain ⟨h0, hlen, h1, hle⟩ := (mem_availableActionsList g.piles a.1 a.2).mp ha2
  refine ⟨_, move_of_ok g a ?_ ?_ ?_⟩
  · simp [hw]
  · push_neg
    exact ⟨h0, hlen⟩
  · push_neg
    exact ⟨h1, hle⟩

lemma winner_none_of_sum_pos (g : Nim) (a : NimAction) (g2 : Nim)
    (h : g.move a = (none, g2)) (hpos : 0 < g2.piles.sum) : g2.winner = none := by
  obtain ⟨-, -, -, hwin, -⟩ := move_ok_inv g a g2 h
  rw [hwin, if_neg]
  intro hall
  have : ∀ x ∈ g2.piles, x = 0 := by simpa using hall
  have := List.sum_eq_zero_iff.mpr this
  omega

lemma sum_pos_of_winner_none (g : Nim) (a : NimAction) (g2 : Nim)
    (h : g.move a = (none, g2)) (hw2 : g2.winner = none) : 0 < g2.piles.sum := by
  by_contra hc
  have hz : g2.piles.sum = 0 := by omega
  have hall : ∀ x ∈ g2.piles, x = 0 := List.sum_eq_zero_iff.mp hz
  have := (move_ok_winner_iff g a g2 h).mpr hall
  rw [hw2] at this
  simp at this

lemma initialDefault_getD_le (i : ℕ) : Nim.initialDefault.getD i 0 ≤ 7 := by
  rcases i with _ | _ | _ | _ | i
  · decide
  · decide
  · decide
  · decide
  · rw [List.getD_eq_getElem?_getD, List.getElem?_eq_none (by simp [Nim.initialDefault])]
    decide

lemma default_first_move_no_win (a : NimAction) (g2 : Nim)
    (h : (Nim.init Nim.initialDefault).move a = (none, g2)) : g2.winner = none := by
  obtain ⟨-, hpiles, -, -, h0, hlen, h1, hle⟩ := move_ok_inv _ a g2 h
  have hidx : a.1.toNat < (Nim.init Nim.initialDefault).piles.length := by omega
  have hsum := sum_set_add (Nim.init Nim.initialDefault).piles a.1.toNat
    ((Nim.init Nim.initialDefault).piles.getD a.1.toNat 0 - a.2.toNat) hidx
  have hgd : (Nim.init Nim.initialDefault).piles.getD a.1.toNat 0 ≤ 7 :=
    initialDefault_getD_le a.1.toNat
  have htot : (Nim.init Nim.initialDefault).piles.sum = 16 := by decide
  apply winner_none_of_sum_pos _ a g2 h
  rw [hpiles]
  omega

lemma getLast_setLast_other (l : Lasts) (p : ℕ) (m : Memo) (hp : p = 0 ∨ p = 1) :
    getLast (setLast l p m) (Nim.other_player p) = getLast l (Nim.other_player p) := by
  rcases hp with rfl | rfl
  · rfl
  · rfl

lemma getLast_setLast_self (l : Lasts) (p : ℕ) (m : Memo) :
    getLast (setLast l p m) p = some m := by
  unfold getLast setLast
  by_cases hp : p = 0
  · simp [hp]
  · simp [hp]

lemma other_player_mem (p : ℕ) : Nim.other_player p = 0 ∨ Nim.other_player p = 1 := by
  unfold Nim.other_player
  split
  · exact Or.inl rfl
  · exact Or.inr rfl

lemma other_other (p : ℕ) (hp : p = 0 ∨ p = 1) :
    Nim.other_player (Nim.other_player p) = p := by
  rcases hp with rfl | rfl
  · rfl
  · rfl

lemma gameLoop_isSome (oracle : ℕ → ℚ × ℕ) :
    ∀ (fuel : ℕ) (ai : NimAI) (k : ℕ) (g : Nim) (last : Lasts),
      g.winner = none →
      0 < g.piles.sum →
      g.piles.sum < fuel →
      (g.player = 0 ∨ g.player = 1) →
      (getLast last (Nim.other_player g.player) = none →
        ∀ (a : NimAction) (g2 : Nim), g.move a = (none, g2) → g2.winner = none) →
      (gameLoop fuel ai oracle k g last).isSome := by
  intro fuel
  induction fuel with
  | zero =>
    intro ai k g last _ _ hlt _ _
    omega
  | succ fuel ih =>
    intro ai k g last hw hpos hlt hpl hsafe
    have hne : Nim.availableActionsList g.piles ≠ [] := avail_ne_nil _ hpos
    obtain ⟨a, hamem, hchoose⟩ := choose_action_ok ai g.piles (oracle k).1 (oracle k).2 hne
    obtain ⟨g2, hmove⟩ := move_ok_of_mem g a hw hamem
    obtain ⟨-, -, hplayer2, -, -⟩ := move_ok_inv g a g2 hmove
    unfold gameLoop
    rw [hchoose]
    dsimp only
    rw [hmove]
    dsimp only
    by_cases hw2 : g2.winner.isSome = true
    · rw [if_pos hw2]
      have hslot : getLast (setLast last g.player (g.piles, a)) g2.player ≠ none := by
        rw [hplayer2, getLast_setLast_other last g.player _ hpl]
        intro hnone
        have hn := hsafe hnone a g2 hmove
        rw [hn] at hw2
        simp at hw2
      cases hsl : getLast (setLast last g.player (g.piles, a)) g2.player with
      | none => exact absurd hsl hslot
      | some m => rfl
    · rw [if_neg hw2]
      have hw2n : g2.winner = none := Option.not_isSome_iff_eq_none.mp hw2
      have hpos2 : 0 < g2.piles.sum := sum_pos_of_winner_none g a g2 hmove hw2n
      have hlt2 : g2.piles.sum < fuel := by
        have := sum_move_lt g a g2 hmove
        omega
      have hpl2 : g2.player = 0 ∨ g2.player = 1 := by
        rw [hplayer2]
        exact other_player_mem g.player
      have hsafe2 : getLast (setLast last g.player (g.piles, a)) (Nim.other_player g2.player) = none →
          ∀ (b : NimAction) (g3 : Nim), g2.move b = (none, g3) → g3.winner = none := by
        intro hnone
        rw [hplayer2, other_other g.player hpl, getLast_setLast_self] at hnone
        cases hnone
      cases hsl : getLast (setLast last g.player (g.piles, a)) g2.player with
      | none => exact ih ai (k + 1) g2 (setLast last g.player (g.piles, a)) hw2n hpos2 hlt2 hpl2 hsafe2
      | some m =>
        exact ih (ai.update m.1 m.2 g2.piles 0) (k + 1) g2 (setLast last g.player (g.piles, a))
          hw2n hpos2 hlt2 hpl2 hsafe2

lemma trainAux_runs (oracle : ℕ → ℚ × ℕ) :
    ∀ (n : ℕ) (ai : NimAI) (k : ℕ), ∃ ai2, trainAux n ai oracle k = some (ai2, n) := by
  intro n
  induction n with
  | zero =>
    intro ai k
    exact ⟨ai, rfl⟩
  | succ n ih =>
    intro ai k
    have hg := gameLoop_isSome oracle (Nim.initialDefault.sum + 1) ai k
      (Nim.init Nim.initialDefault) (none, none) rfl (by decide) (by decide)
      (Or.inl rfl) (fun _ a g2 hmove => default_first_move_no_win a g2 hmove)
    obtain ⟨ai2, hai2⟩ := Option.isSome_iff_exists.mp hg
    obtain ⟨ai3, h3⟩ := ih ai2 (k + Nim.initialDefault.sum + 1)
    refine ⟨ai3, ?_⟩
    unfold trainAux
    rw [hai2]
    dsimp only
    rw [h3]

/-- C9: train always terminates with exactly n completed self-play games
(no crash and no infinite loop), and the ply loop of each game terminates
because every successful move strictly decreases the total pile count. -/
theorem c9_train_terminates :
    (∀ (n : ℕ) (oracle : ℕ → ℚ × ℕ), ∃ ai, train n oracle = some (ai, n)) ∧
    (∀ (g : Nim) (a : NimAction) (g2 : Nim), g.move a = (none, g2) →
      g2.piles.sum < g.piles.sum) := by
  constructor
  · intro n oracle
    obtain ⟨ai2, h⟩ := trainAux_runs oracle n (NimAI.init (1/2) (1/10)) 0
    exact ⟨ai2, h⟩
  · exact fun g a g2 h => sum_move_lt g a g2 h

/-- Witness for C9: one full training game run to completion under a
concrete oracle, and the pile-count decrease evaluated at a concrete
move. -/
theorem c9_witness :
    (train 1 (fun _ => ((0 : ℚ), 0))).isSome = true ∧
    ({ piles := [0], player := 1, winner := some 1 } : Nim).piles.sum <
      (Nim.init [1]).piles.sum := by
  constructor
  · obtain ⟨ai, h⟩ := c9_train_terminates.1 1 (fun _ => ((0 : ℚ), 0))
    rw [h]
    rfl
  · exact c9_train_terminates.2 (Nim.init [1]) (0, 1)
      { piles := [0], player := 1, winner := some 1 } (by decide)
